import Mathlib

/-!
Verification of the core of `lmdb/tool.py` (py-lmdb's command-line tool):
the `cdbmake`-style streaming record codec used by the `dump` and `restore`
commands, the sliding-window rate sampler used by `watch`, the column-width
tracking of the terminal renderer, and the terminal-size fallback.

Python 2 byte strings are modelled as `List Char` (one `Char` per byte);
`fp.read(n)` / `fp.write` become pure list operations.  The fallible integer
conversion `int(s, 10)` is modelled faithfully, including the leading and
trailing whitespace and the single sign character that Python accepts.
-/

namespace LmdbTool

/-- A record: one (key, value) pair of opaque bytes. -/
abbrev Rcd := List Char × List Char

/-! ### Decimal rendering, `'%d' % n` for a natural length -/

/-- `'%d' % n` for a non-negative length: most-significant-first decimal
digits, `"0"` for zero.  Built on `Nat.digits` (little-endian). -/
def natDec (n : Nat) : List Char :=
  if n = 0 then ['0'] else ((Nat.digits 10 n).map Nat.digitChar).reverse

/-- Numeric value of a digit string, as `int` builds it left to right. -/
def digitsVal (cs : List Char) : Nat :=
  cs.foldl (fun a c => 10 * a + (c.toNat - 48)) 0

/-! ### `int(s, 10)`: Python's string-to-integer conversion -/

/-- The whitespace characters `int` strips from both ends of its argument. -/
def isSpaceChar (c : Char) : Bool :=
  c = ' ' || c = '\t' || c = '\n' || c = '\r' || c = '\x0b' || c = '\x0c'

/-- A non-empty all-digit string parses to its value; anything else fails. -/
def parseDigits (cs : List Char) : Option Nat :=
  if cs.isEmpty then none
  else if cs.all Char.isDigit then some (digitsVal cs) else none

/-- `int(s, 10)`: strip surrounding whitespace, accept one optional sign,
then require a non-empty run of decimal digits.  `none` models the
`ValueError` raised on any other content. -/
def pyint (cs : List Char) : Option Int :=
  let t := ((cs.dropWhile isSpaceChar).reverse.dropWhile isSpaceChar).reverse
  match t with
  | [] => none
  | c :: rest =>
      if c = '+' then (parseDigits rest).map (fun n => (n : Int))
      else if c = '-' then (parseDigits rest).map (fun n => -(n : Int))
      else (parseDigits t).map (fun n => (n : Int))

/-! ### The reader primitives of `restore_cursor_from_fp` -/

/-- `read_until(sep)` = `''.join(iter(read1, sep))`: consume bytes up to and
including the first `sep`, returning the bytes before it and the remainder.
If `sep` never occurs, `read1` keeps returning `''` at end of file and the
`iter` never produces its sentinel, so the Python code loops forever; that
divergence is reported as `none`. -/
def readUntil (sep : Char) : List Char → Option (List Char × List Char)
  | [] => none
  | c :: rest =>
      if c = sep then some ([], rest)
      else (readUntil sep rest).map (fun p => (c :: p.1, p.2))

/-- `fp.read(n)` for an `int` count `n`: a negative count reads the whole
remainder (Python 2 file semantics); otherwise at most `n` bytes are
returned, fewer when the source is exhausted. -/
def readN (n : Int) (s : List Char) : List Char × List Char :=
  if n < 0 then (s, []) else (s.take n.toNat, s.drop n.toNat)

/-! ### One iteration of the decode loop -/

/-- The five `die` diagnostics of `restore_cursor_from_fp`. -/
inductive ErrKind where
  | badPlus       -- 'bad or missing plus'
  | badLength     -- 'bad or missing length'
  | badSeparator  -- 'bad or missing separator'
  | shortRecord   -- 'short key or data'
  | badEnding     -- 'bad line ending'
deriving DecidableEq, Repr

/-- Outcome of one iteration of the `while True` loop of
`restore_cursor_from_fp`: end-of-stream marker, one decoded record with the
unread remainder, a fatal diagnostic, or divergence of `read_until`. -/
inductive DecodeResult where
  | eos (rest : List Char)
  | record (key value rest : List Char)
  | fail (k : ErrKind)
  | hang
deriving DecidableEq, Repr

/-- One iteration of the decode loop of `restore_cursor_from_fp`, lines
237-260 of `tool.py`: read one byte (newline ends the stream, anything but
`+` is fatal), parse the two decimal lengths, read the key, check the
2-byte `->` separator, read the value, check the combined byte count
against the declared lengths, and check the trailing newline. -/
def decodeRecord (s : List Char) : DecodeResult :=
  match s with
  | [] => .fail .badPlus
  | plus :: s1 =>
    if plus = '\n' then .eos s1
    else if plus ≠ '+' then .fail .badPlus
    else
      match readUntil ',' s1 with
      | none => .hang
      | some (klenStr, s2) =>
        match pyint klenStr with
        | none => .fail .badLength
        | some klen =>
          match readUntil ':' s2 with
          | none => .hang
          | some (dlenStr, s3) =>
            match pyint dlenStr with
            | none => .fail .badLength
            | some dlen =>
              let keyRest := readN klen s3
              let key := keyRest.1
              let sep := keyRest.2.take 2
              let s4 := keyRest.2.drop 2
              if sep ≠ ['-', '>'] then .fail .badSeparator
              else
                let dataRest := readN dlen s4
                let data := dataRest.1
                if ((key.length : Int) + data.length) ≠ klen + dlen then
                  .fail .shortRecord
                else
                  match dataRest.2 with
                  | [] => .fail .badEnding
                  | nl :: s5 =>
                      if nl = '\n' then .record key data s5
                      else .fail .badEnding

/-! ### Encoding: `dump_cursor_to_fp` -/

/-- The body of the `for` loop of `dump_cursor_to_fp`: the frame written for
one record, `'+%d,%d:' % (len(key), len(value))`, the raw key, `'->'`, the
raw value, and a newline. -/
def encodeRecord (key value : List Char) : List Char :=
  '+' :: natDec key.length ++ [','] ++ natDec value.length ++ [':'] ++
    key ++ ['-', '>'] ++ value ++ ['\n']

/-- The frames of a record sequence, in order, without the end marker. -/
def encList (recs : List Rcd) : List Char :=
  (recs.map fun r => encodeRecord r.1 r.2).flatten

/-- `dump_cursor_to_fp`: every record's frame in cursor order followed by
the single bare newline that ends the stream. -/
def dump_cursor_to_fp (recs : List Rcd) : List Char :=
  encList recs ++ ['\n']

/-! ### The restore loop -/

/-- Result of a run of `restore_cursor_from_fp`: the returned `rec_nr`, a
`die` diagnostic with the 1-based record number it names, divergence of
`read_until`, or exhaustion of the step budget of the model. -/
inductive RestoreResult where
  | ok (count : Nat)
  | fail (k : ErrKind) (recNr : Nat)
  | hang
  | fuelOut
deriving DecidableEq, Repr

/-- The `while True` loop of `restore_cursor_from_fp`, with an explicit step
budget.  `rec_nr` is incremented at the top of every iteration, before the
end-of-stream test, and is the value returned at `break` — so a stream of N
records returns N+1.  Every decoded record is handed to `txn.put` in order;
the first component collects those calls. -/
def restoreAux : Nat → Nat → List Char → List Rcd × RestoreResult
  | 0, _, _ => ([], .fuelOut)
  | fuel + 1, recNr, s =>
    match decodeRecord s with
    | .eos _ => ([], .ok (recNr + 1))
    | .fail k => ([], .fail k (recNr + 1))
    | .hang => ([], .hang)
    | .record key value rest =>
        ((key, value) :: (restoreAux fuel (recNr + 1) rest).1,
         (restoreAux fuel (recNr + 1) rest).2)

/-- `restore_cursor_from_fp`: run the loop from `rec_nr = 0` on the whole
stream.  One byte is consumed before any other work in each iteration, so
`s.length + 1` steps can never be exhausted on a terminating run. -/
def restore_cursor_from_fp (s : List Char) : List Rcd × RestoreResult :=
  restoreAux (s.length + 1) 0 s

/-! ### The windowed sampler of `cmd_watch` -/

/-- `delta(hst)`: the list of consecutive differences
`[hst[i] - hst[i-1] for i in xrange(1, len(hst))]`. -/
def delta (hst : List Int) : List Int :=
  List.zipWith (fun a b => a - b) (hst.drop 1) hst

/-- The history update of `windowfunc`: append the new sample, then
`popleft` when the deque has grown past `window`. -/
def stepHistory (window : Nat) (hist : List Int) (s : Int) : List Int :=
  let h := hist ++ [s]
  if window < h.length then h.tail else h

/-- The rate computation of `windowfunc` on the updated history: 0 with at
most one entry, otherwise `sum(delta(history)) / float(len(history) - 1)`
divided by the tick interval.  Python's float arithmetic is modelled as
exact rational arithmetic. -/
def rate (interval : ℚ) (h : List Int) : ℚ :=
  if h.length ≤ 1 then 0
  else (((delta h).sum : ℚ) / ((h.length - 1 : Nat) : ℚ)) / interval

/-- One call of `windowfunc` (the closure built by `window(func)` in
`cmd_watch`): update the bounded history with the new sample and return the
smoothed rate computed from the retained entries. -/
def windowfunc (window : Nat) (interval : ℚ) (hist : List Int) (s : Int) :
    List Int × ℚ :=
  (stepHistory window hist s, rate interval (stepHistory window hist s))

/-- The rates returned by successive `windowfunc` calls on a fixed sequence
of `sample()` values, starting from an empty history. -/
def runTicks (window : Nat) (interval : ℚ) (samples : List Int) : List ℚ :=
  (samples.foldl
    (fun (acc : List Int × List ℚ) s =>
      ((windowfunc window interval acc.1 s).1,
       acc.2 ++ [(windowfunc window interval acc.1 s).2]))
    ([], [])).2

/-! ### Column widths and cell rendering of `cmd_watch` -/

/-- `s.rjust(n)`: left-pad with spaces to length `n`; a string already at
least `n` long is returned unchanged. -/
def pyRjust (s : List Char) (n : Nat) : List Char :=
  List.replicate (n - s.length) ' ' ++ s

/-- One tick of width tracking: `widths[i] = max(widths[i], len(val))` for
every column. -/
def widthsStep (ws : List Nat) (vals : List (List Char)) : List Nat :=
  List.zipWith (fun w v => max w v.length) ws vals

/-- The width vector after a run of ticks: initialised to the header label
lengths (`[len(head) for _, head, _ in cols]`) and folded through every
tick's formatted values. -/
def widthsAfter (heads : List (List Char)) (vss : List (List (List Char))) :
    List Nat :=
  vss.foldl widthsStep (heads.map List.length)

/-- The cells printed for one data row: `val.rjust(widths[i] + 1)`, using
the widths already updated with this row's values. -/
def renderRow (ws : List Nat) (vals : List (List Char)) : List (List Char) :=
  List.zipWith (fun w v => pyRjust v (w + 1)) ws vals

/-! ### Terminal-size query and cache update -/

/-- A Python return value of `_get_term_width`: either the `(width, height)`
tuple of the success path or the bare `int` default of the `except` path. -/
inductive TermSizeRet where
  | tup (width height : Int)
  | intv (n : Int)
deriving DecidableEq, Repr

/-- `_get_term_width`: on a successful `TIOCGWINSZ` ioctl (whose unpacked
struct is `(height, width)`) return the tuple `(width, height)`; when the
ioctl raises (no controlling terminal), return the bare default `80`. -/
def get_term_width (ioctl : Option (Int × Int)) : TermSizeRet :=
  match ioctl with
  | some hw => .tup hw.2 hw.1
  | none => .intv 80

/-- `_on_sigwinch`: the assignment `_TERM_WIDTH, _TERM_HEIGHT =
_get_term_width()` tuple-unpacks the returned value.  Unpacking a tuple
yields the new cache contents; unpacking a bare `int` raises `TypeError`
(an `int` is not iterable), modelled as `Except.error`. -/
def on_sigwinch (ioctl : Option (Int × Int)) : Except Unit (Int × Int) :=
  match get_term_width ioctl with
  | .tup w h => .ok (w, h)
  | .intv _ => .error ()

/-! ### Facts about the decimal rendering and `int` parsing -/

theorem digitChar_isDigit {d : Nat} (hd : d < 10) :
    (Nat.digitChar d).isDigit = true := by
  interval_cases d <;> decide

theorem digitChar_toNat {d : Nat} (hd : d < 10) :
    (Nat.digitChar d).toNat - 48 = d := by
  interval_cases d <;> decide

theorem natDec_all_digit {n : Nat} : ∀ c ∈ natDec n, c.isDigit = true := by
  intro c hc
  unfold natDec at hc
  by_cases h0 : n = 0
  · simp [h0] at hc
    subst hc; decide
  · simp [h0, List.mem_reverse, List.mem_map] at hc
    obtain ⟨d, hd, rfl⟩ := hc
    exact digitChar_isDigit (Nat.digits_lt_base (by norm_num) hd)

theorem natDec_ne_nil {n : Nat} : natDec n ≠ [] := by
  unfold natDec
  by_cases h0 : n = 0
  · simp [h0]
  · simp [h0, Nat.digits_ne_nil_iff_ne_zero.mpr h0]

theorem foldr_digitChar {L : List Nat} (hL : ∀ d ∈ L, d < 10) :
    L.foldr (fun d a => 10 * a + ((Nat.digitChar d).toNat - 48)) 0
      = Nat.ofDigits 10 L := by
  induction L with
  | nil => simp [Nat.ofDigits_nil]
  | cons d L ih =>
      have hd : d < 10 := hL d (by simp)
      have hL' : ∀ d ∈ L, d < 10 := fun x hx => hL x (by simp [hx])
      simp only [List.foldr_cons, ih hL', Nat.ofDigits_cons,
        digitChar_toNat hd, Nat.cast_id]
      omega

theorem digitsVal_natDec (n : Nat) : digitsVal (natDec n) = n := by
  unfold natDec
  by_cases h0 : n = 0
  · simp [h0]; decide
  · simp only [h0, if_false]
    unfold digitsVal
    rw [List.foldl_reverse, List.foldr_map]
    have := foldr_digitChar (L := Nat.digits 10 n)
      (fun d hd => Nat.digits_lt_base (by norm_num) hd)
    simpa [this] using Nat.ofDigits_digits 10 n

theorem isDigit_not_space {c : Char} (h : c.isDigit = true) :
    isSpaceChar c = false := by
  have h1 : c ≠ ' ' := fun e => absurd h (by subst e; decide)
  have h2 : c ≠ '\t' := fun e => absurd h (by subst e; decide)
  have h3 : c ≠ '\n' := fun e => absurd h (by subst e; decide)
  have h4 : c ≠ '\r' := fun e => absurd h (by subst e; decide)
  have h5 : c ≠ '\x0b' := fun e => absurd h (by subst e; decide)
  have h6 : c ≠ '\x0c' := fun e => absurd h (by subst e; decide)
  simp [isSpaceChar, h1, h2, h3, h4, h5, h6]

theorem isDigit_ne_plus {c : Char} (h : c.isDigit = true) : c ≠ '+' :=
  fun e => absurd h (by subst e; decide)

theorem isDigit_ne_minus {c : Char} (h : c.isDigit = true) : c ≠ '-' :=
  fun e => absurd h (by subst e; decide)

theorem isDigit_ne_comma {c : Char} (h : c.isDigit = true) : c ≠ ',' :=
  fun e => absurd h (by subst e; decide)

theorem isDigit_ne_colon {c : Char} (h : c.isDigit = true) : c ≠ ':' :=
  fun e => absurd h (by subst e; decide)

/-- Dropping a false-everywhere predicate changes nothing. -/
theorem dropWhile_all_false {p : Char → Bool} :
    ∀ {l : List Char}, (∀ c ∈ l, p c = false) → l.dropWhile p = l := by
  intro l h
  cases l with
  | nil => rfl
  | cons c t => simp [List.dropWhile, h c (by simp)]

/-- A non-empty all-digit string survives `int`'s whitespace stripping and
sign handling and parses to its `digitsVal`. -/
theorem pyint_all_digit {l : List Char} (hne : l ≠ [])
    (hd : ∀ c ∈ l, c.isDigit = true) : pyint l = some (digitsVal l : Int) := by
  have hspace : ∀ c ∈ l, isSpaceChar c = false :=
    fun c hc => isDigit_not_space (hd c hc)
  have hstrip1 : l.dropWhile isSpaceChar = l := dropWhile_all_false hspace
  have hstrip2 : l.reverse.dropWhile isSpaceChar = l.reverse :=
    dropWhile_all_false (fun c hc => hspace c (List.mem_reverse.mp hc))
  unfold pyint
  rw [hstrip1, hstrip2, List.reverse_reverse]
  cases l with
  | nil => exact absurd rfl hne
  | cons c t =>
      have hc : c.isDigit = true := hd c (by simp)
      simp only [isDigit_ne_plus hc, isDigit_ne_minus hc, if_false,
        if_neg (isDigit_ne_plus hc), if_neg (isDigit_ne_minus hc)]
      unfold parseDigits
      simp [List.all_eq_true.mpr hd]

theorem pyint_natDec (n : Nat) : pyint (natDec n) = some (n : Int) := by
  rw [pyint_all_digit natDec_ne_nil natDec_all_digit, digitsVal_natDec]

/-! ### Reader-primitive lemmas -/

theorem readUntil_append {sep : Char} :
    ∀ {pre : List Char}, sep ∉ pre → ∀ rest,
      readUntil sep (pre ++ sep :: rest) = some (pre, rest) := by
  intro pre
  induction pre with
  | nil => intro _ rest; simp [readUntil]
  | cons c t ih =>
      intro h rest
      have hc : c ≠ sep := fun e => h (by simp [e])
      have ht : sep ∉ t := fun e => h (by simp [e])
      simp [readUntil, hc, ih ht rest]

theorem readN_exact (l r : List Char) :
    readN (l.length : Int) (l ++ r) = (l, r) := by
  unfold readN
  rw [if_neg (by omega)]
  have h : ((l.length : Int)).toNat = l.length := by omega
  rw [h, List.take_left, List.drop_left]

/-- **C1 core**: the frame written by `dump_cursor_to_fp` for any record —
any bytes whatever in key and value — decodes back to exactly that record,
leaving the rest of the stream untouched. -/
theorem decode_encode (key value rest : List Char) :
    decodeRecord (encodeRecord key value ++ rest) = .record key value rest := by
  have hk : ',' ∉ natDec key.length := fun hc =>
    isDigit_ne_comma (natDec_all_digit _ hc) rfl
  have hv : ':' ∉ natDec value.length := fun hc =>
    isDigit_ne_colon (natDec_all_digit _ hc) rfl
  simp only [encodeRecord, List.cons_append, List.append_assoc,
    List.singleton_append, List.nil_append]
  simp [decodeRecord, readUntil_append hk, readUntil_append hv,
    pyint_natDec, readN_exact, List.take_succ_cons, List.drop_succ_cons]

/-! ### Restore-loop lemmas -/

/-- Extra fuel never changes a run that did not exhaust its budget. -/
theorem restoreAux_mono :
    ∀ (f f' recNr : Nat) (s : List Char), f ≤ f' →
      (restoreAux f recNr s).2 ≠ .fuelOut →
      restoreAux f' recNr s = restoreAux f recNr s := by
  intro f
  induction f with
  | zero => intro f' recNr s _ h; exact absurd rfl h
  | succ f ih =>
      intro f' recNr s hle h
      obtain ⟨f'', rfl⟩ : ∃ f'', f' = f'' + 1 :=
        ⟨f' - 1, by omega⟩
      simp only [restoreAux] at h ⊢
      cases hd : decodeRecord s with
      | eos r => simp [hd]
      | fail k => simp [hd]
      | hang => simp [hd]
      | record key value rest =>
          simp only [hd] at h ⊢
          rw [ih f'' (recNr + 1) rest (by omega) h]

/-- `encList` never shrinks below one byte per record. -/
theorem encList_length_ge (recs : List Rcd) :
    recs.length ≤ (encList recs).length := by
  induction recs with
  | nil => simp [encList]
  | cons r rs ih =>
      simp only [encList, List.map_cons, List.flatten_cons, List.length_append,
        List.length_cons] at ih ⊢
      have : 1 ≤ (encodeRecord r.1 r.2).length := by
        simp [encodeRecord]
      omega

/-- Running the loop over the frames of `recs` followed by any tail: every
record is handed to `txn.put` in order and the loop continues on the tail
with the record counter advanced, one unit of fuel spent per record. -/
theorem restoreAux_encList :
    ∀ (recs : List Rcd) (f recNr : Nat) (tail : List Char),
      restoreAux (recs.length + f) recNr (encList recs ++ tail)
        = (recs ++ (restoreAux f (recNr + recs.length) tail).1,
           (restoreAux f (recNr + recs.length) tail).2) := by
  intro recs
  induction recs with
  | nil => intro f recNr tail; simp [encList]
  | cons r rs ih =>
      intro f recNr tail
      have harith : rs.length + 1 + f = (rs.length + f) + 1 := by omega
      have hcons : encList (r :: rs) = encodeRecord r.1 r.2 ++ encList rs := by
        simp [encList]
      simp only [List.length_cons, harith, hcons, List.append_assoc]
      have hstep : restoreAux ((rs.length + f) + 1) recNr
          (encodeRecord r.1 r.2 ++ (encList rs ++ tail))
          = ((r.1, r.2) ::
              (restoreAux (rs.length + f) (recNr + 1) (encList rs ++ tail)).1,
             (restoreAux (rs.length + f) (recNr + 1) (encList rs ++ tail)).2) := by
        simp only [restoreAux, decode_encode]
      rw [hstep, ih f (recNr + 1) tail]
      have : recNr + 1 + rs.length = recNr + (rs.length + 1) := by omega
      simp [this]

/-- The whole-stream run on an encoded prefix followed by a tail whose
first decode step settles the run in one iteration. -/
theorem restore_encList_tail (recs : List Rcd) (tail : List Char)
    (h : (restoreAux 1 recs.length tail).2 ≠ .fuelOut) :
    restore_cursor_from_fp (encList recs ++ tail)
      = (recs ++ (restoreAux 1 recs.length tail).1,
         (restoreAux 1 recs.length tail).2) := by
  unfold restore_cursor_from_fp
  set S := (encList recs ++ tail).length with hS
  have hlen : recs.length ≤ S := by
    have := encList_length_ge recs
    simp only [hS, List.length_append]
    omega
  have hsplit : S + 1 = recs.length + (S + 1 - recs.length) := by omega
  rw [hsplit, restoreAux_encList recs (S + 1 - recs.length) 0 tail]
  rw [Nat.zero_add]
  rw [restoreAux_mono 1 (S + 1 - recs.length) recs.length tail (by omega) h]

/-- **Stream round-trip with the off-by-one count**: restoring a dumped
record sequence hands back exactly the dumped records, in order, and
returns `len(seq) + 1` — `rec_nr` is incremented before the end-of-stream
test, so the count the code reports exceeds the number of records by one. -/
theorem restore_dump (recs : List Rcd) :
    restore_cursor_from_fp (dump_cursor_to_fp recs)
      = (recs, .ok (recs.length + 1)) := by
  unfold dump_cursor_to_fp
  have h1 : restoreAux 1 recs.length ['\n'] = ([], .ok (recs.length + 1)) := by
    simp [restoreAux, decodeRecord]
  rw [restore_encList_tail recs ['\n'] (by rw [h1]; simp)]
  rw [h1]
  simp

/-! ### Sampler lemmas -/

/-- `delta` produces one difference per adjacent pair. -/
theorem delta_length (h : List Int) : (delta h).length = h.length - 1 := by
  simp [delta, List.length_zipWith]

/-- The deque never grows past the window: one append then at most one
`popleft` keeps any length that was within the bound within the bound. -/
theorem stepHistory_length_le {w : Nat} {hist : List Int} {s : Int}
    (h : hist.length ≤ w) : (stepHistory w hist s).length ≤ w := by
  simp only [stepHistory]
  split <;> simp_all

/-- The window=2 invariant along any run of ticks from any bounded start. -/
theorem foldl_stepHistory_two :
    ∀ (samples : List Int) (hist : List Int), hist.length ≤ 2 →
      (samples.foldl (stepHistory 2) hist).length ≤ 2 := by
  intro samples
  induction samples with
  | nil => intro hist h; simpa using h
  | cons s t ih =>
      intro hist h
      simpa using ih (stepHistory 2 hist s) (stepHistory_length_le h)

/-! ### Renderer width lemmas -/

/-- Width tracking preserves the column count when the row is as wide as
the width vector. -/
theorem widthsStep_length {ws : List Nat} {vals : List (List Char)}
    (h : ws.length ≤ vals.length) : (widthsStep ws vals).length = ws.length := by
  simp [widthsStep, List.length_zipWith]
  omega

/-- The width vector keeps one entry per column throughout a run. -/
theorem widthsAfter_length {heads : List (List Char)}
    {vss : List (List (List Char))}
    (h : ∀ row ∈ vss, row.length = heads.length) :
    (widthsAfter heads vss).length = heads.length := by
  unfold widthsAfter
  suffices hgen : ∀ (vss : List (List (List Char))) (ws : List Nat),
      ws.length = heads.length → (∀ row ∈ vss, row.length = heads.length) →
      (vss.foldl widthsStep ws).length = heads.length by
    exact hgen vss (heads.map List.length) (by simp) h
  intro vss
  induction vss with
  | nil => intro ws hws _; simpa using hws
  | cons row t ih =>
      intro ws hws hrows
      have hrow : row.length = heads.length := hrows row (by simp)
      simp only [List.foldl_cons]
      exact ih (widthsStep ws row)
        (by rw [widthsStep_length (by omega)]; omega)
        (fun r hr => hrows r (by simp [hr]))

/-- One step of width tracking at one column: the entry becomes the max of
its previous value and this tick's value width. -/
theorem widthsStep_getD {ws : List Nat} {vals : List (List Char)} {i : Nat}
    (h1 : i < ws.length) (h2 : i < vals.length) :
    (widthsStep ws vals).getD i 0 = max (ws.getD i 0) ((vals.getD i []).length) := by
  have hlen : i < (widthsStep ws vals).length := by
    simp [widthsStep, List.length_zipWith]; omega
  rw [List.getD_eq_getElem _ _ hlen, List.getD_eq_getElem _ _ h1,
    List.getD_eq_getElem _ _ h2]
  simp [widthsStep, List.getElem_zipWith]

/-- The column width after a run of ticks is the fold of `max` over the
widths of the values seen in that column, started at the header width. -/
theorem widthsAfter_getD {heads : List (List Char)}
    {vss : List (List (List Char))}
    (hrows : ∀ row ∈ vss, row.length = heads.length) {i : Nat}
    (hi : i < heads.length) :
    (widthsAfter heads vss).getD i 0
      = vss.foldl (fun a row => max a ((row.getD i []).length))
          ((heads.getD i []).length) := by
  unfold widthsAfter
  suffices hgen : ∀ (vss : List (List (List Char))) (ws : List Nat),
      ws.length = heads.length → (∀ row ∈ vss, row.length = heads.length) →
      (vss.foldl widthsStep ws).getD i 0
        = vss.foldl (fun a row => max a ((row.getD i []).length)) (ws.getD i 0) by
    have hbase : ((heads.map List.length).getD i 0) = (heads.getD i []).length := by
      rw [List.getD_eq_getElem _ _ (by simpa using hi),
        List.getD_eq_getElem _ _ hi]
      simp
    rw [hgen vss (heads.map List.length) (by simp) hrows, hbase]
  intro vss
  induction vss with
  | nil => intro ws _ _; simp
  | cons row t ih =>
      intro ws hws hrows'
      have hrow : row.length = heads.length := hrows' row (by simp)
      simp only [List.foldl_cons]
      rw [ih (widthsStep ws row)
            (by rw [widthsStep_length (by omega)]; omega)
            (fun r hr => hrows' r (by simp [hr])),
          widthsStep_getD (by omega) (by omega)]

/-- The cell printed at one column: the value right-justified to the
current column width plus one. -/
theorem renderRow_getD {ws : List Nat} {vals : List (List Char)} {i : Nat}
    (h1 : i < ws.length) (h2 : i < vals.length) :
    (renderRow ws vals).getD i []
      = pyRjust (vals.getD i []) ((ws.getD i 0) + 1) := by
  have hlen : i < (renderRow ws vals).length := by
    simp [renderRow, List.length_zipWith]; omega
  rw [List.getD_eq_getElem _ _ hlen, List.getD_eq_getElem _ _ h1,
    List.getD_eq_getElem _ _ h2]
  simp [renderRow, List.getElem_zipWith]

/-! ### Truncated-stream decode lemmas -/

/-- `fp.read(n)` on an exhausted source returns everything that is left. -/
theorem readN_short {n : Nat} {l : List Char} (h : l.length ≤ n) :
    readN (n : Int) l = (l, []) := by
  unfold readN
  rw [if_neg (by omega)]
  have hn : ((n : Int)).toNat = n := by omega
  rw [hn, List.take_of_length_le h, List.drop_eq_nil_of_le h]

/-- A frame whose key and `->` separator are intact but whose value is cut
short of its declared length fails the combined-length check. -/
theorem decode_truncated_value (key vpre : List Char) (dlen : Nat)
    (h : vpre.length < dlen) :
    decodeRecord ('+' :: natDec key.length ++ [','] ++ natDec dlen ++ [':'] ++
      key ++ ['-', '>'] ++ vpre) = .fail .shortRecord := by
  have hk : ',' ∉ natDec key.length := fun hc =>
    isDigit_ne_comma (natDec_all_digit _ hc) rfl
  have hv : ':' ∉ natDec dlen := fun hc =>
    isDigit_ne_colon (natDec_all_digit _ hc) rfl
  have hne : (key.length : Int) + (vpre.length : Int)
      ≠ (key.length : Int) + (dlen : Int) := by omega
  simp only [List.cons_append, List.append_assoc, List.singleton_append,
    List.nil_append]
  simp [decodeRecord, readUntil_append hk, readUntil_append hv,
    pyint_natDec, readN_exact, readN_short (Nat.le_of_lt h),
    List.take_succ_cons, List.drop_succ_cons, hne]

/-- A frame cut short inside its key fails the separator check — the 2-byte
read that should find `->` gets nothing — before the length check runs. -/
theorem decode_truncated_key (klen dlen : Nat) (kpre : List Char)
    (h : kpre.length < klen) :
    decodeRecord ('+' :: natDec klen ++ [','] ++ natDec dlen ++ [':'] ++ kpre)
      = .fail .badSeparator := by
  have hk : ',' ∉ natDec klen := fun hc =>
    isDigit_ne_comma (natDec_all_digit _ hc) rfl
  have hv : ':' ∉ natDec dlen := fun hc =>
    isDigit_ne_colon (natDec_all_digit _ hc) rfl
  simp only [List.cons_append, List.append_assoc, List.singleton_append,
    List.nil_append]
  simp [decodeRecord, readUntil_append hk, readUntil_append hv,
    pyint_natDec, readN_short (Nat.le_of_lt h)]

/-! ### Claim theorems -/

/-- Claim C1: for every record — any byte content whatever in key and
value, including empty key, empty value, and embedded newline, `+`, `,`,
`:` or `->` bytes — decoding the encoding of that record yields the record
back unchanged, consuming exactly the frame and leaving the rest of the
stream intact. -/
theorem claim_C1_record_roundtrip (key value rest : List Char) :
    decodeRecord (encodeRecord key value ++ rest)
      = .record key value rest :=
  decode_encode key value rest

/-- Claim C2 (code bug): restoring a dumped sequence does deliver exactly
the dumped records to `txn.put`, in order, but the count
`restore_cursor_from_fp` returns is `len(seq) + 1`, not `len(seq)`:
`rec_nr` is incremented before the end-of-stream test, so the empty dump
reads back with count 1, not the 0 the specification states, and
`cmd_restore`'s `'Loaded %d keys'` over-reports by one. -/
theorem claim_C2_stream_roundtrip_count :
    restore_cursor_from_fp (dump_cursor_to_fp []) = ([], .ok 1)
    ∧ ∀ recs : List Rcd,
        restore_cursor_from_fp (dump_cursor_to_fp recs)
          = (recs, .ok (recs.length + 1)) :=
  ⟨restore_dump [], restore_dump⟩

/-- Claim C3: a stream whose final record's value is truncated by at least
one byte — key and `->` separator read in full, source exhausted before the
declared `vallen` bytes arrive — fails with the short-record error
(`'short key or data'`), carrying the 1-based index of the failing
record. -/
theorem claim_C3_truncated_value_short_record (recs : List Rcd)
    (key vpre : List Char) (dlen : Nat) (h : vpre.length < dlen) :
    restore_cursor_from_fp (encList recs ++
        ('+' :: natDec key.length ++ [','] ++ natDec dlen ++ [':'] ++
          key ++ ['-', '>'] ++ vpre))
      = (recs, .fail .shortRecord (recs.length + 1)) := by
  have hd := decode_truncated_value key vpre dlen h
  simp only [List.cons_append, List.append_assoc, List.singleton_append,
    List.nil_append] at hd
  have h1 : restoreAux 1 recs.length
      ('+' :: natDec key.length ++ [','] ++ natDec dlen ++ [':'] ++
        key ++ ['-', '>'] ++ vpre)
      = ([], .fail .shortRecord (recs.length + 1)) := by
    simp [restoreAux, hd]
  rw [restore_encList_tail recs _ (by rw [h1]; simp), h1]
  simp

theorem claim_C3_witness :
    ([] : List Char).length < 1
    ∧ restore_cursor_from_fp (encList [] ++
        ('+' :: natDec (['k'] : List Char).length ++ [','] ++ natDec 1 ++
          [':'] ++ ['k'] ++ ['-', '>'] ++ ([] : List Char)))
      = ([], .fail .shortRecord 1) :=
  ⟨by decide, claim_C3_truncated_value_short_record [] ['k'] [] 1 (by decide)⟩

/-- Claim C4: with `window=10, interval=1` and `sample()` returning
10, 20, 40, 70, the four ticks return 0, 10, 15 and 20; in general the
tick returns 0 while the history holds at most one entry and otherwise the
arithmetic mean of the consecutive differences over the retained history
divided by the interval.  Python's float division is modelled as exact
rational division; the listed values are exactly representable either
way. -/
theorem claim_C4_sampler_rates :
    runTicks 10 1 [10, 20, 40, 70] = [0, 10, 15, 20]
    ∧ ∀ (w : Nat) (iv : ℚ) (hist : List Int) (s : Int),
        ((windowfunc w iv hist s).1.length ≤ 1 → (windowfunc w iv hist s).2 = 0)
        ∧ (1 < (windowfunc w iv hist s).1.length →
            (windowfunc w iv hist s).2
              = (((delta (windowfunc w iv hist s).1).sum : ℚ)
                  / (((delta (windowfunc w iv hist s).1).length : Nat) : ℚ)) / iv) := by
  refine ⟨by norm_num [runTicks, windowfunc, stepHistory, rate, delta], ?_⟩
  intro w iv hist s
  constructor
  · intro h
    simp only [windowfunc] at h ⊢
    simp [rate, h]
  · intro h
    simp only [windowfunc] at h ⊢
    rw [rate, if_neg (by omega), delta_length]

theorem claim_C4_witness :
    1 < (windowfunc 10 1 [10] 20).1.length
    ∧ (windowfunc 10 1 [10] 20).2
        = (((delta (windowfunc 10 1 [10] 20).1).sum : ℚ)
            / (((delta (windowfunc 10 1 [10] 20).1).length : Nat) : ℚ)) / 1 :=
  ⟨by decide, (claim_C4_sampler_rates.2 10 1 [10] 20).2 (by decide)⟩

/-- Claim C5: for every positive window size the history length stays at
most the window after a tick whenever it was within the window before it —
the oldest entry is evicted when capacity is exceeded — so with `window=2`
any run of ticks (five or otherwise) keeps at most 2 retained entries; and
the rate a tick returns is a function of the retained history alone. -/
theorem claim_C5_window_bound :
    (∀ (w : Nat) (iv : ℚ) (hist : List Int) (s : Int), 0 < w →
        hist.length ≤ w → (windowfunc w iv hist s).1.length ≤ w)
    ∧ (∀ samples : List Int, (samples.foldl (stepHistory 2) []).length ≤ 2)
    ∧ (∀ (w : Nat) (iv : ℚ) (hist : List Int) (s : Int),
        (windowfunc w iv hist s).2 = rate iv ((windowfunc w iv hist s).1)) := by
  refine ⟨fun w iv hist s _ h => stepHistory_length_le h,
    fun samples => foldl_stepHistory_two samples [] (by simp),
    fun w iv hist s => rfl⟩

theorem claim_C5_witness :
    0 < 2 ∧ ([5, 6] : List Int).length ≤ 2
    ∧ (windowfunc 2 1 [5, 6] 7).1.length ≤ 2 :=
  ⟨by decide, by decide,
   claim_C5_window_bound.1 2 1 [5, 6] 7 (by decide) (by decide)⟩

/-- Claim C6: when the stream is a run of well-formed frames followed by
content whose first decode step fails, every record decoded before the
failure has already been handed to `txn.put`, in order; those calls are
not undone, and the run aborts with the failing record's 1-based index,
processing nothing further. -/
theorem claim_C6_sink_prefix_on_failure (recs : List Rcd) (tail : List Char)
    (k : ErrKind) (h : decodeRecord tail = .fail k) :
    restore_cursor_from_fp (encList recs ++ tail)
      = (recs, .fail k (recs.length + 1)) := by
  have h1 : restoreAux 1 recs.length tail
      = ([], .fail k (recs.length + 1)) := by
    simp [restoreAux, h]
  rw [restore_encList_tail recs tail (by rw [h1]; simp), h1]
  simp

theorem claim_C6_witness :
    decodeRecord ['x'] = .fail .badPlus
    ∧ restore_cursor_from_fp (encList [(['a'], ['b'])] ++ ['x'])
        = ([(['a'], ['b'])], .fail .badPlus 2) :=
  ⟨by decide, claim_C6_sink_prefix_on_failure [(['a'], ['b'])] ['x']
    .badPlus (by decide)⟩

/-- Claim C7, counterexample: the claim says any non-digit content in a
length field fails with the bad-length error, but `int(s, 10)` accepts a
leading sign: the frame `++3,0:abc->` (key length field `+3`, containing
the non-digit `+`) decodes successfully. -/
theorem claim_C7_counterexample :
    Char.isDigit '+' = false
    ∧ decodeRecord ['+', '+', '3', ',', '0', ':', 'a', 'b', 'c', '-', '>', '\n']
        = .record ['a', 'b', 'c'] [] [] := by
  decide

/-- Claim C7 as amended: a length field that `int(s, 10)` cannot parse —
any content other than optional surrounding whitespace, an optional single
sign, and a non-empty digit run — fails with the bad-length error, in
whichever of the two length fields it occurs; in particular `+3x,5:`
fails. -/
theorem claim_C7_badlength_amended (ks vs rest : List Char)
    (h1 : ',' ∉ ks) (h2 : ':' ∉ vs)
    (h3 : pyint ks = none ∨ pyint vs = none) :
    decodeRecord ('+' :: ks ++ [','] ++ vs ++ [':'] ++ rest)
      = .fail .badLength := by
  simp only [List.cons_append, List.append_assoc, List.singleton_append,
    List.nil_append]
  rcases h3 with h3 | h3
  · simp [decodeRecord, readUntil_append h1, h3]
  · cases hk : pyint ks with
    | none => simp [decodeRecord, readUntil_append h1, hk]
    | some klen =>
        simp [decodeRecord, readUntil_append h1, hk, readUntil_append h2, h3]

theorem claim_C7_witness :
    ',' ∉ (['3', 'x'] : List Char) ∧ ':' ∉ (['5'] : List Char)
    ∧ pyint ['3', 'x'] = none
    ∧ decodeRecord ('+' :: ['3', 'x'] ++ [','] ++ ['5'] ++ [':'] ++ [])
        = .fail .badLength :=
  ⟨by decide, by decide, by decide,
   claim_C7_badlength_amended ['3', 'x'] ['5'] [] (by decide) (by decide)
     (Or.inl (by decide))⟩

/-- Claim C8 (code bug): when the window-size ioctl fails, `_get_term_width`
returns the bare `int` 80 where its success path returns a 2-tuple; the
tuple unpacking in `_on_sigwinch` (called unconditionally at startup)
therefore raises `TypeError` instead of caching an 80-column fallback —
subsequent width reads never see the default. -/
theorem claim_C8_term_width_fallback_bug :
    get_term_width none = .intv 80
    ∧ on_sigwinch none = .error ()
    ∧ ∀ h w : Int, on_sigwinch (some (h, w)) = .ok (w, h) :=
  ⟨rfl, rfl, fun _ _ => rfl⟩

/-- Claim C9, counterexample: after header `Depth` (width 5) and the value
`7`, the tracked column width is 5 as the claim says, but the printed cell
is `'7'.rjust(6)`, not a right-justification to the column's current
width 5. -/
theorem claim_C9_counterexample :
    widthsAfter [['D', 'e', 'p', 't', 'h']] [[['7']]] = [5]
    ∧ renderRow (widthsAfter [['D', 'e', 'p', 't', 'h']] [[['7']]]) [['7']]
        ≠ [pyRjust ['7'] 5] := by
  decide

/-- Claim C9 as amended: in terminal mode every column's width equals the
fold of `max` over the widths of the values produced for that column so
far, started at the header label's width; widths never shrink from one
tick to the next; and every cell is right-justified to its column's
current width **plus one** (`val.rjust(widths[i] + 1)`, the extra column
providing the separating space). -/
theorem claim_C9_widths_amended (heads : List (List Char))
    (vss : List (List (List Char)))
    (hrows : ∀ row ∈ vss, row.length = heads.length)
    (i : Nat) (hi : i < heads.length) :
    ((widthsAfter heads vss).getD i 0
        = vss.foldl (fun a row => max a ((row.getD i []).length))
            ((heads.getD i []).length))
    ∧ (∀ vs, vs.length = heads.length →
        (widthsAfter heads vss).getD i 0
          ≤ (widthsAfter heads (vss ++ [vs])).getD i 0)
    ∧ (∀ vs, vs.length = heads.length →
        (renderRow (widthsAfter heads (vss ++ [vs])) vs).getD i []
          = pyRjust (vs.getD i [])
              ((widthsAfter heads (vss ++ [vs])).getD i 0 + 1)) := by
  refine ⟨widthsAfter_getD hrows hi, ?_, ?_⟩
  · intro vs hvs
    have happ : widthsAfter heads (vss ++ [vs])
        = widthsStep (widthsAfter heads vss) vs := by
      unfold widthsAfter
      rw [List.foldl_append]
      rfl
    have hws : (widthsAfter heads vss).length = heads.length :=
      widthsAfter_length hrows
    rw [happ, widthsStep_getD (by omega) (by omega)]
    exact le_max_left _ _
  · intro vs hvs
    have hrows' : ∀ row ∈ vss ++ [vs], row.length = heads.length := by
      intro r hr
      rcases List.mem_append.mp hr with h | h
      · exact hrows r h
      · simp only [List.mem_singleton] at h
        subst h; exact hvs
    have hlen : (widthsAfter heads (vss ++ [vs])).length = heads.length :=
      widthsAfter_length hrows'
    exact renderRow_getD (by omega) (by omega)

theorem claim_C9_witness :
    (∀ row ∈ ([] : List (List (List Char))),
        row.length = ([['H']] : List (List Char)).length)
    ∧ 0 < ([['H']] : List (List Char)).length
    ∧ (widthsAfter [['H']] []).getD 0 0
        = ([] : List (List (List Char))).foldl
            (fun a row => max a ((row.getD 0 []).length))
            ((([['H']] : List (List Char)).getD 0 []).length) :=
  ⟨by simp, by decide,
   (claim_C9_widths_amended [['H']] [] (by simp) 0 (by decide)).1⟩

/-- Claim C10: when the source is exhausted while reading the declared
`keylen` key bytes — the key read returns fewer bytes than declared and no
2-byte `->` separator can follow — the failure is the bad-separator error,
not the short-record error, because the separator comparison runs before
the combined-length check. -/
theorem claim_C10_truncated_key_bad_separator (recs : List Rcd)
    (klen dlen : Nat) (kpre : List Char) (h : kpre.length < klen) :
    restore_cursor_from_fp (encList recs ++
        ('+' :: natDec klen ++ [','] ++ natDec dlen ++ [':'] ++ kpre))
      = (recs, .fail .badSeparator (recs.length + 1)) := by
  have hd := decode_truncated_key klen dlen kpre h
  simp only [List.cons_append, List.append_assoc, List.singleton_append,
    List.nil_append] at hd
  have h1 : restoreAux 1 recs.length
      ('+' :: natDec klen ++ [','] ++ natDec dlen ++ [':'] ++ kpre)
      = ([], .fail .badSeparator (recs.length + 1)) := by
    simp [restoreAux, hd]
  rw [restore_encList_tail recs _ (by rw [h1]; simp), h1]
  simp

theorem claim_C10_witness :
    (['a'] : List Char).length < 3
    ∧ restore_cursor_from_fp (encList [] ++
        ('+' :: natDec 3 ++ [','] ++ natDec 0 ++ [':'] ++ ['a']))
      = ([], .fail .badSeparator 1) :=
  ⟨by decide, claim_C10_truncated_key_bad_separator [] 3 0 ['a'] (by decide)⟩

end LmdbTool
